import Mathlib

/-!
Verification of the substring-indexing engine of this repository: the online
suffix automaton (SuffixMachine) and Ukkonen suffix tree (SuffixTree) builders
behind the SubstringMachine facade, their finalization passes, and the
RightContextIterator.  The C++ source is shallowly embedded: heap vertices
connected by shared/weak pointers become an arena (a list of vertex records
addressed by index), std::map becomes a sorted association list, raw loops
become fuel-bounded recursion returning Option (none models a run that would
not terminate or would dereference a null/expired pointer; on every input the
actual code reaches, the fuel is ample and the result is some).  Two revisions
of the automaton builder exist in the repository; both are embedded: the
primary one (src/unnamed/part_000) and the older one
(src/Algo/sem3/Reviews/Strings.cpp, suffix R below), which differ in the
clone-length assignment and in the root guard of ProcessVertex.
-/

set_option maxRecDepth 40000

/-! ### Association-list maps (std::map with Nat keys, kept in key order) -/

/-- Lookup in a key-sorted association list: std::map::count / at / find. -/
def lookupA : List (Nat × Nat) → Nat → Option Nat
  | [], _ => none
  | (k, w) :: rest, c => if k = c then some w else lookupA rest c

/-- std::map::insert: inserts at the key-ordered position, no overwrite when
the key is already present. -/
def insertA : List (Nat × Nat) → Nat → Nat → List (Nat × Nat)
  | [], c, v => [(c, v)]
  | (k, w) :: rest, c, v =>
    if c < k then (c, v) :: (k, w) :: rest
    else if c = k then (k, w) :: rest
    else (k, w) :: insertA rest c v

/-- Assignment through std::map::at / operator[] on a present key: overwrite. -/
def setA : List (Nat × Nat) → Nat → Nat → List (Nat × Nat)
  | [], _, _ => []
  | (k, w) :: rest, c, v => if k = c then (k, v) :: rest else (k, w) :: setA rest c v

/-! ### Suffix automaton (part_000, class SuffixMachine) -/

/-- SuffixMachine::Vertex (part_000 lines 110-141): edge_char, suffix_link,
parent, length, num_of_occurrences, next, is_terminal.  Pointers become arena
indices; the parent weak_ptr of the root is empty, hence Option. -/
structure SAV where
  edgeChar : Nat
  suffixLink : Nat
  parent : Option Nat
  length : Nat
  numOfOccurrences : Nat
  next : List (Nat × Nat)
  isTerminal : Bool
deriving Repr, DecidableEq

instance : Inhabited SAV := ⟨⟨0, 0, none, 0, 0, [], false⟩⟩

/-- Dereference an automaton arena index. -/
def getV (ar : List SAV) (i : Nat) : SAV := (ar.get? i).getD default

/-- Mutate one automaton vertex in place. -/
def updV (ar : List SAV) (i : Nat) (f : SAV → SAV) : List SAV := ar.set i (f (getV ar i))

/-- One record per executed clone branch of SuffixMachine::Build, written when
the clone is created: the length of the stopping state p, the length of the
split state q, and the arena index the clone was stored at. -/
structure CloneRec where
  pLen : Nat
  qLen : Nat
  cloneIdx : Nat
deriving Repr, DecidableEq

/-- The automaton builder state: the arena, the index of last_, and the log of
clone events (instrumentation only; no embedded code reads it). -/
structure SAState where
  arena : List SAV
  lastIdx : Nat
  cloneLog : List CloneRec
deriving Repr, DecidableEq

/-- The first inner loop of SuffixMachine::Build (part_000 line 157):
`for (; !p->next.count(c); p = p->suffix_link.lock()) p->next.insert({c, v});`
Returns the updated arena, the stopping vertex p, and q = p->next.at(c). -/
def walkIns : Nat → Nat → Nat → List SAV → Nat → Option (List SAV × Nat × Nat)
  | 0, _, _, _, _ => none
  | fuel + 1, c, vIdx, ar, p =>
    match lookupA (getV ar p).next c with
    | some q => some (ar, p, q)
    | none =>
      walkIns fuel c vIdx (updV ar p (fun x => { x with next := insertA x.next c vIdx }))
        (getV ar p).suffixLink

/-- The second inner loop of SuffixMachine::Build (part_000 line 179):
`for (; p->next.at(c) == q; p = p->suffix_link.lock()) p->next.at(c) = clone;` -/
def walkFix : Nat → Nat → Nat → Nat → List SAV → Nat → Option (List SAV)
  | 0, _, _, _, _, _ => none
  | fuel + 1, c, qIdx, clIdx, ar, p =>
    if lookupA (getV ar p).next c = some qIdx then
      walkFix fuel c qIdx clIdx (updV ar p (fun x => { x with next := setA x.next c clIdx }))
        (getV ar p).suffixLink
    else
      some ar

/-- One iteration of the body of SuffixMachine::Build (part_000 lines 149-182):
create cur, walk the suffix links inserting transitions, then set the suffix
link of cur directly, via q, or via a freshly created clone with
`clone->length = p->length + 1`. -/
def saStep (st : SAState) (c : Nat) : Option SAState :=
  let vIdx := st.arena.length
  let v : SAV :=
    { edgeChar := c, suffixLink := 0, parent := some st.lastIdx,
      length := (getV st.arena st.lastIdx).length + 1, numOfOccurrences := 0,
      next := [], isTerminal := false }
  let ar0 := st.arena ++ [v]
  match walkIns (ar0.length + 1) c vIdx ar0 st.lastIdx with
  | none => none
  | some (ar1, p, q) =>
    if q = vIdx then
      some ⟨updV ar1 vIdx (fun x => { x with suffixLink := 0 }), vIdx, st.cloneLog⟩
    else if (getV ar1 q).length = (getV ar1 p).length + 1 then
      some ⟨updV ar1 vIdx (fun x => { x with suffixLink := q }), vIdx, st.cloneLog⟩
    else
      let clIdx := ar1.length
      let qV := getV ar1 q
      let pLen := (getV ar1 p).length
      let clone : SAV :=
        { edgeChar := c, suffixLink := qV.suffixLink, parent := some p, length := pLen + 1,
          numOfOccurrences := 0, next := qV.next, isTerminal := false }
      let ar2 := ar1 ++ [clone]
      let ar3 := updV ar2 vIdx (fun x => { x with suffixLink := clIdx })
      let ar4 := updV ar3 q (fun x => { x with suffixLink := clIdx })
      match walkFix (ar4.length + 1) c q clIdx ar4 p with
      | none => none
      | some ar5 => some ⟨ar5, vIdx, st.cloneLog ++ [⟨pLen, qV.length, clIdx⟩]⟩

/-- The root state made by SuffixMachine::Init: length 0, suffix link to
itself, no parent (its weak_ptr stays empty). -/
def saRoot : SAV := { edgeChar := 0, suffixLink := 0, parent := none, length := 0,
                      numOfOccurrences := 0, next := [], isTerminal := false }

/-- SuffixMachine::Build: fold saStep over the input symbols. -/
def saBuild (s : List Nat) : Option SAState :=
  s.foldl (fun acc c => acc.bind (fun st => saStep st c)) (some ⟨[saRoot], 0, []⟩)

/-- The terminal-marking loop of SuffixMachine::Finally (part_000 line 187):
`for (auto v(last_); v != root_; v = v->suffix_link.lock()) v->is_terminal = true;` -/
def saMark : Nat → List SAV → Nat → Option (List SAV)
  | 0, _, _ => none
  | fuel + 1, ar, v =>
    if v = 0 then some ar
    else saMark fuel (updV ar v (fun x => { x with isTerminal := true })) (getV ar v).suffixLink

/-- SuffixMachine::ProcessVertex (part_000 lines 194-207): depth-first
traversal over the transition DAG with a seen set; sets
num_of_occurrences = (is_terminal ? 1 : 0) + sum over children, and pushes the
vertex to the exposed collection after its children, root excluded.  The
Sum.inl case is one ProcessVertex call, the Sum.inr case is its loop over the
remaining children. -/
def saDfsGo : Nat → List SAV → List Nat → List Nat → (Nat ⊕ (List (Nat × Nat) × Nat)) →
    Option (List SAV × List Nat × List Nat)
  | 0, _, _, _, _ => none
  | fuel + 1, ar, seen, out, Sum.inl v =>
    if seen.contains v then some (ar, seen, out)
    else
      let seen1 := v :: seen
      let ar1 := updV ar v (fun x => { x with numOfOccurrences := if x.isTerminal then 1 else 0 })
      match saDfsGo fuel ar1 seen1 out (Sum.inr ((getV ar1 v).next, v)) with
      | none => none
      | some (ar2, seen2, out2) =>
        some (ar2, seen2, if v = 0 then out2 else out2 ++ [v])
  | _ + 1, ar, seen, out, Sum.inr ([], _) => some (ar, seen, out)
  | fuel + 1, ar, seen, out, Sum.inr ((_, w) :: rest, v) =>
    match saDfsGo fuel ar seen out (Sum.inl w) with
    | none => none
    | some (ar1, seen1, out1) =>
      let ar2 := updV ar1 v
        (fun x => { x with numOfOccurrences := x.numOfOccurrences + (getV ar1 w).numOfOccurrences })
      saDfsGo fuel ar2 seen1 out1 (Sum.inr (rest, v))

/-- SuffixMachine::Finally (part_000 lines 185-192): mark the root terminal,
mark the suffix-link chain of last_ terminal, then run ProcessVertex from the
root.  Returns the final arena and the pushed index sequence. -/
def saFinally (st : SAState) : Option (List SAV × List Nat) :=
  let ar0 := updV st.arena 0 (fun x => { x with isTerminal := true })
  match saMark (ar0.length + 1) ar0 st.lastIdx with
  | none => none
  | some ar1 =>
    match saDfsGo ((ar1.length + 2) * (ar1.length + 2)) ar1 [] [] (Sum.inl 0) with
    | none => none
    | some (ar2, _, out) => some (ar2, out)

/-- The parent-walk of SuffixMachine::Vertex::GetString (part_000 line 118):
push edge_char of each strict ancestor that itself has a parent. -/
def saChain : Nat → List SAV → Option Nat → List Nat
  | 0, _, _ => []
  | _, _, none => []
  | fuel + 1, ar, some v =>
    match (getV ar v).parent with
    | none => []
    | some _ => (getV ar v).edgeChar :: saChain fuel ar (getV ar v).parent

/-- SuffixMachine::Vertex::GetString (part_000 lines 111-124): own edge_char,
then ancestors, reversed. -/
def saGetString (ar : List SAV) (idx : Nat) : List Nat :=
  ((getV ar idx).edgeChar :: saChain (ar.length + 1) ar (getV ar idx).parent).reverse

/-- The finalized automaton machine: the exposed vertex collection in push
order, as (GetString, GetMaximalLength, GetNumOfOccurrences) triples. -/
def saMachine (s : List Nat) : Option (List (List Nat × Nat × Nat)) :=
  match saBuild s with
  | none => none
  | some st =>
    match saFinally st with
    | none => none
    | some (ar, out) =>
      some (out.map (fun i => (saGetString ar i, (getV ar i).length, (getV ar i).numOfOccurrences)))

/-! ### Suffix automaton, older revision (Strings.cpp, suffix R)

The Build of src/Algo/sem3/Reviews/Strings.cpp (lines 186-221) differs from
part_000 in exactly one assignment: `clone->length = q->length;` instead of
`clone->length = p->length + 1;`.  Its ProcessVertex (lines 232-243) differs in
exactly one statement: the push_back is unconditional, so the root itself is
pushed into the exposed collection. -/

/-- One step of the Strings.cpp revision of SuffixMachine::Build: identical to
saStep except that the clone receives length(q). -/
def saStepR (st : SAState) (c : Nat) : Option SAState :=
  let vIdx := st.arena.length
  let v : SAV :=
    { edgeChar := c, suffixLink := 0, parent := some st.lastIdx,
      length := (getV st.arena st.lastIdx).length + 1, numOfOccurrences := 0,
      next := [], isTerminal := false }
  let ar0 := st.arena ++ [v]
  match walkIns (ar0.length + 1) c vIdx ar0 st.lastIdx with
  | none => none
  | some (ar1, p, q) =>
    if q = vIdx then
      some ⟨updV ar1 vIdx (fun x => { x with suffixLink := 0 }), vIdx, st.cloneLog⟩
    else if (getV ar1 q).length = (getV ar1 p).length + 1 then
      some ⟨updV ar1 vIdx (fun x => { x with suffixLink := q }), vIdx, st.cloneLog⟩
    else
      let clIdx := ar1.length
      let qV := getV ar1 q
      let pLen := (getV ar1 p).length
      let clone : SAV :=
        { edgeChar := c, suffixLink := qV.suffixLink, parent := some p, length := qV.length,
          numOfOccurrences := 0, next := qV.next, isTerminal := false }
      let ar2 := ar1 ++ [clone]
      let ar3 := updV ar2 vIdx (fun x => { x with suffixLink := clIdx })
      let ar4 := updV ar3 q (fun x => { x with suffixLink := clIdx })
      match walkFix (ar4.length + 1) c q clIdx ar4 p with
      | none => none
      | some ar5 => some ⟨ar5, vIdx, st.cloneLog ++ [⟨pLen, qV.length, clIdx⟩]⟩

/-- Strings.cpp revision of SuffixMachine::Build. -/
def saBuildR (s : List Nat) : Option SAState :=
  s.foldl (fun acc c => acc.bind (fun st => saStepR st c)) (some ⟨[saRoot], 0, []⟩)

/-- Strings.cpp revision of ProcessVertex (lines 232-243): as saDfsGo but the
vertex is pushed unconditionally, including the root. -/
def saDfsGoR : Nat → List SAV → List Nat → List Nat → (Nat ⊕ (List (Nat × Nat) × Nat)) →
    Option (List SAV × List Nat × List Nat)
  | 0, _, _, _, _ => none
  | fuel + 1, ar, seen, out, Sum.inl v =>
    if seen.contains v then some (ar, seen, out)
    else
      let seen1 := v :: seen
      let ar1 := updV ar v (fun x => { x with numOfOccurrences := if x.isTerminal then 1 else 0 })
      match saDfsGoR fuel ar1 seen1 out (Sum.inr ((getV ar1 v).next, v)) with
      | none => none
      | some (ar2, seen2, out2) =>
        some (ar2, seen2, out2 ++ [v])
  | _ + 1, ar, seen, out, Sum.inr ([], _) => some (ar, seen, out)
  | fuel + 1, ar, seen, out, Sum.inr ((_, w) :: rest, v) =>
    match saDfsGoR fuel ar seen out (Sum.inl w) with
    | none => none
    | some (ar1, seen1, out1) =>
      let ar2 := updV ar1 v
        (fun x => { x with numOfOccurrences := x.numOfOccurrences + (getV ar1 w).numOfOccurrences })
      saDfsGoR fuel ar2 seen1 out1 (Sum.inr (rest, v))

/-- Strings.cpp revision of SuffixMachine::Finally (lines 223-230). -/
def saFinallyR (st : SAState) : Option (List SAV × List Nat) :=
  let ar0 := updV st.arena 0 (fun x => { x with isTerminal := true })
  match saMark (ar0.length + 1) ar0 st.lastIdx with
  | none => none
  | some ar1 =>
    match saDfsGoR ((ar1.length + 2) * (ar1.length + 2)) ar1 [] [] (Sum.inl 0) with
    | none => none
    | some (ar2, _, out) => some (ar2, out)

/-! ### Suffix tree (part_000, class SuffixTree) -/

/-- SuffixTree::Vertex (part_000 lines 238-289): children, is_terminal,
num_of_occurrences, distance_from_root, left_bound, right_bound, parent,
suffix_link.  The shared string pointer becomes an explicit parameter s. -/
structure STV where
  children : List (Nat × Nat)
  isTerminal : Bool
  numOfOccurrences : Nat
  distFromRoot : Nat
  leftBound : Nat
  rightBound : Nat
  parent : Option Nat
  suffixLink : Option Nat
deriving Repr, DecidableEq

instance : Inhabited STV := ⟨⟨[], false, 0, 0, 0, 0, none, none⟩⟩

/-- Dereference a tree arena index. -/
def getT (ar : List STV) (i : Nat) : STV := (ar.get? i).getD default

/-- Mutate one tree vertex in place. -/
def updT (ar : List STV) (i : Nat) (f : STV → STV) : List STV := ar.set i (f (getT ar i))

/-- SuffixTree::Position (part_000 lines 370-415): a vertex plus the distance
still to descend to reach it (0 means exactly at the vertex). -/
structure STPos where
  downVertex : Nat
  distFromDown : Nat
deriving Repr, DecidableEq

/-- Vertex::Length: right_bound - left_bound. -/
def stLenOf (v : STV) : Nat := v.rightBound - v.leftBound

/-- Vertex::GetChar(d): string->at(right_bound - d). -/
def stGetChar (s : List Nat) (v : STV) (d : Nat) : Nat := s.getD (v.rightBound - d) 0

/-- Vertex::FirstChar: string->at(left_bound). -/
def stFirstChar (s : List Nat) (v : STV) : Nat := s.getD v.leftBound 0

/-- Position::CanGo (part_000 lines 375-381). -/
def stCanGo (s : List Nat) (ar : List STV) (pos : STPos) (c : Nat) : Bool :=
  if pos.distFromDown = 0 then (lookupA (getT ar pos.downVertex).children c).isSome
  else c = stGetChar s (getT ar pos.downVertex) pos.distFromDown

/-- Position::OneStepDown (part_000 lines 383-393). -/
def stOneStepDown (s : List Nat) (ar : List STV) (pos : STPos) (c : Nat) : STPos :=
  if pos.distFromDown = 0 then
    match lookupA (getT ar pos.downVertex).children c with
    | some ch => ⟨ch, stLenOf (getT ar ch) - 1⟩
    | none => pos
  else ⟨pos.downVertex, pos.distFromDown - 1⟩

/-- Position::Go (part_000 lines 395-411): descend from the position along the
substring s[l, r) by whole-edge jumps. -/
def stGo : Nat → List Nat → List STV → STPos → Nat → Nat → Option STPos
  | 0, _, _, _, _, _ => none
  | fuel + 1, s, ar, pos, l, r =>
    if l < r then
      if pos.distFromDown = 0 then
        match lookupA (getT ar pos.downVertex).children (s.getD l 0) with
        | none => none
        | some ch => stGo fuel s ar ⟨ch, stLenOf (getT ar ch)⟩ l r
      else if pos.distFromDown < r - l then
        stGo fuel s ar ⟨pos.downVertex, 0⟩ (l + pos.distFromDown) r
      else
        some ⟨pos.downVertex, pos.distFromDown - (r - l)⟩
    else some pos

/-- SuffixTree::SplitEdge and SuffixTree::BuildSuffixLink (part_000 lines
417-435 and 300-306), which recurse into each other: Sum.inl is a SplitEdge
call on a position, Sum.inr is a BuildSuffixLink call on a vertex (its result
component is the vertex index itself).  SplitEdge at a vertex returns it;
mid-edge it creates new_v owning the upper part of the edge, re-parents the old
vertex under it, redirects the grandparent child entry, and builds the suffix
link of new_v by descending (Go) from the root or from the parent link target. -/
def stSplitGo : Nat → List Nat → List STV → (STPos ⊕ Nat) → Option (List STV × Nat)
  | 0, _, _, _ => none
  | fuel + 1, s, ar, Sum.inl pos =>
    if pos.distFromDown = 0 then some (ar, pos.downVertex)
    else
      let v := pos.downVertex
      match (getT ar v).parent with
      | none => none
      | some u =>
        let vOld := getT ar v
        let split := vOld.rightBound - pos.distFromDown
        let newIdx := ar.length
        let newV : STV :=
          { children := [(s.getD split 0, v)], isTerminal := false, numOfOccurrences := 0,
            distFromRoot := 0, leftBound := vOld.leftBound, rightBound := split,
            parent := some u, suffixLink := none }
        let ar1 := updT ar u (fun x => { x with children := setA x.children (stFirstChar s vOld) newIdx })
        let ar2 := updT ar1 v (fun x => { x with leftBound := split, parent := some newIdx })
        let ar3 := ar2 ++ [newV]
        match stSplitGo fuel s ar3 (Sum.inr newIdx) with
        | none => none
        | some (ar4, _) => some (ar4, newIdx)
  | fuel + 1, s, ar, Sum.inr idx =>
    let x := getT ar idx
    match x.parent with
    | none => none
    | some p =>
      if p = 0 then
        match stGo (2 * s.length + 4) s ar ⟨0, 0⟩ (x.leftBound + 1) x.rightBound with
        | none => none
        | some pos =>
          match stSplitGo fuel s ar (Sum.inl pos) with
          | none => none
          | some (ar1, t) => some (updT ar1 idx (fun y => { y with suffixLink := some t }), idx)
      else
        match (getT ar p).suffixLink with
        | none => none
        | some pl =>
          match stGo (2 * s.length + 4) s ar ⟨pl, 0⟩ x.leftBound x.rightBound with
          | none => none
          | some pos =>
            match stSplitGo fuel s ar (Sum.inl pos) with
            | none => none
            | some (ar1, t) => some (updT ar1 idx (fun y => { y with suffixLink := some t }), idx)

/-- SuffixTree::SplitEdge entry point. -/
def stSplit (fuel : Nat) (s : List Nat) (ar : List STV) (pos : STPos) : Option (List STV × Nat) :=
  stSplitGo fuel s ar (Sum.inl pos)

/-- SuffixTree::MakeLeaf (part_000 lines 314-325): a leaf [i, INFINITY) where
INFINITY is the total input length, terminal from birth, registered in the
parent children map under its first character. -/
def stMakeLeaf (s : List Nat) (ar : List STV) (vIdx : Nat) (i : Nat) : List STV :=
  let leafIdx := ar.length
  let leaf : STV :=
    { children := [], isTerminal := true, numOfOccurrences := 0, distFromRoot := 0,
      leftBound := i, rightBound := s.length, parent := some vIdx, suffixLink := none }
  let ar1 := ar ++ [leaf]
  updT ar1 vIdx (fun x => { x with children := insertA x.children (s.getD i 0) leafIdx })

/-- The inner while loop of SuffixTree::Build (part_000 lines 330-341) for
input position i with symbol c: extend and stop, or split, attach a leaf, and
follow the suffix link. -/
def stInner : Nat → List Nat → List STV → STPos → Nat → Nat → Option (List STV × STPos)
  | 0, _, _, _, _, _ => none
  | fuel + 1, s, ar, pos, i, c =>
    if stCanGo s ar pos c then some (ar, stOneStepDown s ar pos c)
    else
      match stSplit (2 * s.length + 8) s ar pos with
      | none => none
      | some (ar1, vx) =>
        let ar2 := stMakeLeaf s ar1 vx i
        if vx = 0 then some (ar2, pos)
        else
          match (getT ar2 vx).suffixLink with
          | none => none
          | some l => stInner fuel s ar2 ⟨l, 0⟩ i c

/-- The root vertex made by SuffixTree::Init. -/
def stRoot : STV := { children := [], isTerminal := false, numOfOccurrences := 0,
                      distFromRoot := 0, leftBound := 0, rightBound := 0,
                      parent := none, suffixLink := none }

/-- SuffixTree::Build (part_000 lines 327-343): the outer loop over input
positions; the active point last_not_leaf_ starts at the root. -/
def stBuild (s : List Nat) : Option (List STV × STPos) :=
  (List.range s.length).foldl
    (fun acc i => acc.bind (fun st => stInner (s.length + 4) s st.1 st.2 i (s.getD i 0)))
    (some ([stRoot], ⟨0, 0⟩))

/-- The terminal-marking loop of SuffixTree::Finally (part_000 line 360):
walk suffix links from the materialized active point to the root. -/
def stMark : Nat → List STV → Nat → Option (List STV)
  | 0, _, _ => none
  | fuel + 1, ar, v =>
    if v = 0 then some ar
    else
      match (getT ar v).suffixLink with
      | none => none
      | some l => stMark fuel (updT ar v (fun x => { x with isTerminal := true })) l

/-- SuffixTree::ProcessVertex (part_000 lines 345-357): pre-order it sets
distance_from_root (edge length plus the parent distance) and pushes every
non-root vertex; then num_of_occurrences = (is_terminal ? 1 : 0) + sum over
children.  Sum.inl is one call, Sum.inr the loop over remaining children. -/
def stDfsGo : Nat → List STV → List Nat → (Nat ⊕ (List (Nat × Nat) × Nat)) →
    Option (List STV × List Nat)
  | 0, _, _, _ => none
  | fuel + 1, ar, out, Sum.inl v =>
    let step1 : Option (List STV × List Nat) :=
      if v = 0 then some (updT ar 0 (fun x => { x with distFromRoot := 0 }), out)
      else
        match (getT ar v).parent with
        | none => none
        | some p =>
          some (updT ar v
            (fun x => { x with distFromRoot := stLenOf x + (getT ar p).distFromRoot }), out ++ [v])
    match step1 with
    | none => none
    | some (ar1, out1) =>
      let ar2 := updT ar1 v (fun x => { x with numOfOccurrences := if x.isTerminal then 1 else 0 })
      stDfsGo fuel ar2 out1 (Sum.inr ((getT ar2 v).children, v))
  | _ + 1, ar, out, Sum.inr ([], _) => some (ar, out)
  | fuel + 1, ar, out, Sum.inr ((_, w) :: rest, v) =>
    match stDfsGo fuel ar out (Sum.inl w) with
    | none => none
    | some (ar1, out1) =>
      let ar2 := updT ar1 v
        (fun x => { x with numOfOccurrences := x.numOfOccurrences + (getT ar1 w).numOfOccurrences })
      stDfsGo fuel ar2 out1 (Sum.inr (rest, v))

/-- SuffixTree::Finally (part_000 lines 359-364): materialize the active
point, mark its suffix-link chain terminal, then run ProcessVertex from the
root.  Returns the final arena and the pushed index sequence. -/
def stFinally (s : List Nat) (ar : List STV) (pos : STPos) : Option (List STV × List Nat) :=
  match stSplit (2 * s.length + 8) s ar pos with
  | none => none
  | some (ar1, vx) =>
    match stMark (ar1.length + 1) ar1 vx with
    | none => none
    | some ar2 => stDfsGo ((ar2.length + 2) * (ar2.length + 2)) ar2 [] (Sum.inl 0)

/-- The edge label of a tree vertex: string->substr(left_bound, Length). -/
def stSeg (s : List Nat) (v : STV) : List Nat := (s.drop v.leftBound).take (stLenOf v)

/-- The ancestor walk of SuffixTree::Vertex::GetString (part_000 line 245):
collect edge labels of strict ancestors that themselves have a parent. -/
def stChain : Nat → List Nat → List STV → Option Nat → List (List Nat)
  | 0, _, _, _ => []
  | _, _, _, none => []
  | fuel + 1, s, ar, some v =>
    match (getT ar v).parent with
    | none => []
    | some _ => stSeg s (getT ar v) :: stChain fuel s ar (getT ar v).parent

/-- SuffixTree::Vertex::GetString (part_000 lines 239-255): own edge label and
ancestor labels, concatenated top-down. -/
def stGetString (s : List Nat) (ar : List STV) (idx : Nat) : List Nat :=
  ((stSeg s (getT ar idx) :: stChain (ar.length + 1) s ar (getT ar idx).parent).reverse).flatten

/-- The finalized tree machine: the exposed vertex collection in push order,
as (GetString, GetMaximalLength, GetNumOfOccurrences) triples. -/
def stMachine (s : List Nat) : Option (List (List Nat × Nat × Nat)) :=
  match stBuild s with
  | none => none
  | some (ar, pos) =>
    match stFinally s ar pos with
    | none => none
    | some (ar1, out) =>
      some (out.map (fun i =>
        (stGetString s ar1 i, (getT ar1 i).distFromRoot, (getT ar1 i).numOfOccurrences)))

/-! ### SubstringMachine facade and RightContextIterator (part_000 lines 9-90)

Iterator operations are embedded with an explicit outcome type so that the
failure mode is part of the model: `Assert` (part_000 lines 9-14) does not
abort on a violated precondition, it enters an infinite busy loop
(`volatile int x = 0; while (true) ++x;`), embedded as the outcome `hang`.
An abort/panic, had the code used one, would be the outcome `abortPanic`;
no embedded operation ever produces it. -/

/-- The outcome of running one iterator operation: a returned value, a process
abort, or a non-terminating spin. -/
inductive Exec (α : Type) where
  | normal (a : α)
  | abortPanic
  | hang
deriving Repr, DecidableEq

/-- Assert (part_000 lines 9-14): no-op when the condition holds, otherwise an
infinite busy loop, i.e. the operation hangs and nothing after it runs. -/
def assertRun (b : Bool) : Exec Unit :=
  if b then Exec.normal () else Exec.hang

/-- A RightContextIterator value: the shared vertex collection (none models
the null pointer of a default-constructed iterator) and the index. -/
structure RCIter where
  vertices : Option (List (List Nat × Nat × Nat))
  index : Nat
deriving Repr, DecidableEq

/-- RightContextIterator::Valid (part_000 lines 61-63):
vertices_ non-null and index_ < size. -/
def rciValid (it : RCIter) : Bool :=
  match it.vertices with
  | none => false
  | some vs => it.index < vs.length

/-- SubstringMachine::GetRightContextIterator: a fresh iterator over the
finalized collection at index 0. -/
def mkIter (es : List (List Nat × Nat × Nat)) : RCIter := ⟨some es, 0⟩

/-- RightContextIterator::Next (part_000 lines 65-70): Assert(Valid()), then
return a copy with the index incremented. -/
def rciNext (it : RCIter) : Exec RCIter :=
  match assertRun (rciValid it) with
  | Exec.normal _ => Exec.normal ⟨it.vertices, it.index + 1⟩
  | Exec.abortPanic => Exec.abortPanic
  | Exec.hang => Exec.hang

/-- RightContextIterator::GetStateString (part_000 lines 72-75). -/
def rciGetStateString (it : RCIter) : Exec (List Nat) :=
  match assertRun (rciValid it) with
  | Exec.normal _ =>
    Exec.normal ((((it.vertices.getD []).get? it.index).getD ([], 0, 0)).1)
  | Exec.abortPanic => Exec.abortPanic
  | Exec.hang => Exec.hang

/-- RightContextIterator::GetMaximalLength (part_000 lines 77-80). -/
def rciGetMaximalLength (it : RCIter) : Exec Nat :=
  match assertRun (rciValid it) with
  | Exec.normal _ =>
    Exec.normal ((((it.vertices.getD []).get? it.index).getD ([], 0, 0)).2.1)
  | Exec.abortPanic => Exec.abortPanic
  | Exec.hang => Exec.hang

/-- RightContextIterator::GetNumOfOccurrences (part_000 lines 82-85). -/
def rciGetNumOfOccurrences (it : RCIter) : Exec Nat :=
  match assertRun (rciValid it) with
  | Exec.normal _ =>
    Exec.normal ((((it.vertices.getD []).get? it.index).getD ([], 0, 0)).2.2)
  | Exec.abortPanic => Exec.abortPanic
  | Exec.hang => Exec.hang

/-- RightContextIterator::Next of the Strings.cpp revision (lines 107-111):
no Assert at all; the increment happens whether or not the iterator is valid. -/
def rciNextR (it : RCIter) : RCIter := ⟨it.vertices, it.index + 1⟩

/-! ### Brute-force oracle and small-input corpora -/

/-- Element-wise equality of symbol sequences. -/
def natListBeq : List Nat → List Nat → Bool
  | [], [] => true
  | a :: as, b :: bs => a == b && natListBeq as bs
  | _, _ => false

/-- The brute-force oracle: the number of start positions i such that the
substring of s of length |w| starting at i equals w. -/
def occCount (s w : List Nat) : Nat :=
  ((List.range (s.length + 1)).filter
    (fun i => i + w.length ≤ s.length && natListBeq ((s.drop i).take w.length) w)).length

/-- All strings of the given length over the symbols 0..k-1. -/
def stringsOfLen (k : Nat) : Nat → List (List Nat)
  | 0 => [[]]
  | n + 1 => (stringsOfLen k n).flatMap (fun w => (List.range k).map (fun c => w ++ [c]))

/-- All strings of length at most n over the symbols 0..k-1. -/
def allStringsLe (k n : Nat) : List (List Nat) :=
  (List.range (n + 1)).flatMap (stringsOfLen k)

/-- Additional test inputs beyond the exhaustive bound: the spec's scenario D
(abcbc, which runs the clone branch twice), and assorted longer strings over
larger alphabets. -/
def extraInputs : List (List Nat) :=
  [[0, 1, 2, 1, 2], [0, 0, 1, 0, 0, 1], [0, 1, 1, 0, 1, 1, 0], [1, 0, 2, 0, 1],
   [0, 1, 2, 0, 1, 2], [2, 1, 0, 1, 2], [0, 0, 0, 1, 0, 0, 0], [1, 1, 0, 1, 1, 0, 1],
   [0, 1, 0, 2, 0, 1, 0], [3, 1, 4, 1, 5]]

/-- The small-input corpus: every binary string of length at most 5, every
ternary string of length at most 4, and the additional test inputs. -/
def corpusSmall : List (List Nat) := allStringsLe 2 5 ++ allStringsLe 3 4 ++ extraInputs

/-- Lexicographic order on pairs, for sorting. -/
def pairLeB (a b : Nat × Nat) : Bool :=
  a.1 < b.1 || (a.1 == b.1 && a.2 ≤ b.2)

/-- Sorted insertion of a pair. -/
def insSorted (x : Nat × Nat) : List (Nat × Nat) → List (Nat × Nat)
  | [] => [x]
  | y :: ys => if pairLeB x y then x :: y :: ys else y :: insSorted x ys

/-- The canonical (sorted) form of a list of pairs: two lists have the same
multiset of pairs iff their canonical forms are equal. -/
def canonPairs (l : List (Nat × Nat)) : List (Nat × Nat) := l.foldr insSorted []

/-- Element-wise equality of pair lists. -/
def pairListBeq : List (Nat × Nat) → List (Nat × Nat) → Bool
  | [], [] => true
  | a :: as, b :: bs => a.1 == b.1 && a.2 == b.2 && pairListBeq as bs
  | _, _ => false

/-- The (maximal_length, occurrence_count) pairs enumerated by the finalized
automaton machine. -/
def saPairs (s : List Nat) : List (Nat × Nat) :=
  match saMachine s with
  | none => []
  | some es => es.map (fun e => (e.2.1, e.2.2))

/-- The (maximal_length, occurrence_count) pairs enumerated by the finalized
tree machine. -/
def stPairs (s : List Nat) : List (Nat × Nat) :=
  match stMachine s with
  | none => []
  | some es => es.map (fun e => (e.2.1, e.2.2))

/-- The automaton enumeration with each state expanded over its full
represented length range: one (L, occurrence_count) pair for every length L
with length(link(v)) < L <= length(v). -/
def saExpanded (s : List Nat) : Option (List (Nat × Nat)) :=
  match saBuild s with
  | none => none
  | some st =>
    match saFinally st with
    | none => none
    | some (ar, out) =>
      some (out.flatMap (fun i =>
        let lo := (getV ar (getV ar i).suffixLink).length
        (List.range' (lo + 1) ((getV ar i).length - lo)).map
          (fun L => (L, (getV ar i).numOfOccurrences))))

/-- The tree enumeration with each vertex expanded over its full represented
length range: one (L, occurrence_count) pair for every length L with
distance_from_root(parent(v)) < L <= distance_from_root(v). -/
def stExpanded (s : List Nat) : Option (List (Nat × Nat)) :=
  match stBuild s with
  | none => none
  | some (ar, pos) =>
    match stFinally s ar pos with
    | none => none
    | some (ar1, out) =>
      some (out.flatMap (fun i =>
        let lo := match (getT ar1 i).parent with
                  | none => 0
                  | some p => (getT ar1 p).distFromRoot
        (List.range' (lo + 1) ((getT ar1 i).distFromRoot - lo)).map
          (fun L => (L, (getT ar1 i).numOfOccurrences))))

/-- Checker for the amended cross-check property: both builders succeed and
their expanded (length, occurrence_count) multisets coincide. -/
def chkCross (s : List Nat) : Bool :=
  match saExpanded s, stExpanded s with
  | some a, some b => pairListBeq (canonPairs a) (canonPairs b)
  | _, _ => false

/-- Checker for the oracle property on one input: both machines succeed, and
every enumerated entry of either machine reports occurrence_count equal to the
brute-force count of its representative substring and maximal_length equal to
the length of that substring. -/
def chkOracle (s : List Nat) : Bool :=
  (match saMachine s with
   | none => false
   | some es => es.all (fun e => e.2.2 == occCount s e.1 && e.2.1 == e.1.length))
  &&
  (match stMachine s with
   | none => false
   | some es => es.all (fun e => e.2.2 == occCount s e.1 && e.2.1 == e.1.length))

/-- Sorted insertion of a Nat. -/
def insSortedN (x : Nat) : List Nat → List Nat
  | [] => [x]
  | y :: ys => if x ≤ y then x :: y :: ys else y :: insSortedN x ys

/-- Canonical (sorted) form of a list of Nat. -/
def canonNats (l : List Nat) : List Nat := l.foldr insSortedN []

/-- Checker for the enumeration-coverage property of the part_000 automaton on
one input: the pushed index sequence is exactly the non-root arena indices
1..n-1, each exactly once (sorted comparison), and the root is marked terminal
in the final arena. -/
def chkCoverage (s : List Nat) : Bool :=
  match saBuild s with
  | none => false
  | some st =>
    match saFinally st with
    | none => false
    | some (ar, out) =>
      natListBeq (canonNats out) ((List.range ar.length).drop 1) && (getV ar 0).isTerminal

/-- Checker for the same coverage property of the part_000 tree. -/
def chkCoverageT (s : List Nat) : Bool :=
  match stBuild s with
  | none => false
  | some (ar, pos) =>
    match stFinally s ar pos with
    | none => false
    | some (ar1, out) => natListBeq (canonNats out) ((List.range ar1.length).drop 1)

/-- The number of vertices in the subtree of i (i included) satisfying the
predicate, by fuel-bounded structural descent over the children maps. -/
def stSubtreeCount : Nat → List STV → (STV → Bool) → Nat → Nat
  | 0, _, _, _ => 0
  | fuel + 1, ar, pred, v =>
    (if pred (getT ar v) then 1 else 0) +
      ((getT ar v).children.map (fun kw => stSubtreeCount fuel ar pred kw.2)).sum

/-- Checker for the amended occurrence-aggregation property of the tree on one
input: every enumerated vertex has occurrence_count equal to the number of
terminal vertices in its subtree (every leaf is terminal from birth, and the
finalization pass marks some internal vertices terminal as well). -/
def chkOccTerm (s : List Nat) : Bool :=
  match stBuild s with
  | none => false
  | some (ar, pos) =>
    match stFinally s ar pos with
    | none => false
    | some (ar1, out) =>
      out.all (fun i =>
        (getT ar1 i).numOfOccurrences
          == stSubtreeCount (ar1.length + 1) ar1 (fun v => v.isTerminal) i)

/-- The original claim shadow for occurrence aggregation: every enumerated
vertex has occurrence_count equal to the number of leaves in its subtree. -/
def chkOccLeaves (s : List Nat) : Bool :=
  match stBuild s with
  | none => false
  | some (ar, pos) =>
    match stFinally s ar pos with
    | none => false
    | some (ar1, out) =>
      out.all (fun i =>
        (getT ar1 i).numOfOccurrences
          == stSubtreeCount (ar1.length + 1) ar1 (fun v => v.children.isEmpty) i)

/-- The original claim shadow for internal arity: every enumerated vertex is a
leaf or has at least 2 children. -/
def chkArity2 (s : List Nat) : Bool :=
  match stBuild s with
  | none => false
  | some (ar, pos) =>
    match stFinally s ar pos with
    | none => false
    | some (ar1, out) =>
      out.all (fun i => (getT ar1 i).children.isEmpty || 2 ≤ (getT ar1 i).children.length)

/-- Checker for the amended structural property of the finalized tree on one
input: every enumerated vertex is a leaf, has at least 2 children, or is
terminal (unary internal vertices occur, but only terminal-marked ones), and
every child-map entry is keyed by the first symbol of the child edge. -/
def chkArityKeys (s : List Nat) : Bool :=
  match stBuild s with
  | none => false
  | some (ar, pos) =>
    match stFinally s ar pos with
    | none => false
    | some (ar1, out) =>
      out.all (fun i =>
        let v := getT ar1 i
        (v.children.isEmpty || 2 ≤ v.children.length || v.isTerminal)
        && v.children.all (fun kw => kw.1 == stFirstChar s (getT ar1 kw.2)))
      && (getT ar1 0).children.all (fun kw => kw.1 == stFirstChar s (getT ar1 kw.2))

/-- The link-length invariant of the automaton arena: every non-root state has
length(link(v)) < length(v). -/
def chkLinkLt (ar : List SAV) : Bool :=
  (List.range ar.length).all
    (fun i => i == 0 || (getV ar (getV ar i).suffixLink).length < (getV ar i).length)

/-- Checker: the part_000 build succeeds and its final arena satisfies the
link-length invariant. -/
def chkLinkInv (s : List Nat) : Bool :=
  match saBuild s with
  | none => false
  | some st => chkLinkLt st.arena

/-- The final arena of the Strings.cpp revision build (empty when the build
does not complete). -/
def saArenaR (s : List Nat) : List SAV :=
  match saBuildR s with
  | none => []
  | some st => st.arena

/-- The enumeration (pushed index sequence) of the Strings.cpp revision,
produced by its unguarded ProcessVertex. -/
def saOutR (s : List Nat) : List Nat :=
  match saBuildR s with
  | none => []
  | some st =>
    match saFinallyR st with
    | none => []
    | some (_, out) => out

/-! ### Lengths are write-once in the automaton arena

The length field of an automaton vertex is assigned at creation and never
mutated; the builder only appends vertices and rewrites next, suffix_link,
is_terminal and num_of_occurrences.  These lemmas make that precise, and carry
the clone log through the build. -/

/-- Arena growth: the arena only gains vertices, and the length field of every
existing vertex is unchanged. -/
def lenGrow (ar ar2 : List SAV) : Prop :=
  ar.length ≤ ar2.length ∧ ∀ i, i < ar.length → (getV ar2 i).length = (getV ar i).length

theorem lenGrow_refl (ar : List SAV) : lenGrow ar ar := ⟨le_refl _, fun _ _ => rfl⟩

theorem lenGrow_trans {a b c : List SAV} (h1 : lenGrow a b) (h2 : lenGrow b c) : lenGrow a c :=
  ⟨le_trans h1.1 h2.1, fun i hi => (h2.2 i (lt_of_lt_of_le hi h1.1)).trans (h1.2 i hi)⟩

theorem length_updV (ar : List SAV) (i : Nat) (f : SAV → SAV) :
    (updV ar i f).length = ar.length := List.length_set ..

theorem getV_updV_ne (ar : List SAV) (i j : Nat) (f : SAV → SAV) (h : i ≠ j) :
    getV (updV ar i f) j = getV ar j := by
  unfold getV updV
  rw [List.get?_set_ne _ _ h]

theorem getV_updV_self (ar : List SAV) (i : Nat) (f : SAV → SAV) (h : i < ar.length) :
    getV (updV ar i f) i = f (getV ar i) := by
  unfold getV updV
  rw [List.get?_set_eq, List.get?_eq_get h]
  simp [getV, List.get?_eq_get h, List.getElem?_eq_getElem h]

theorem lenGrow_updV (ar : List SAV) (i : Nat) (f : SAV → SAV)
    (hf : ∀ x, (f x).length = x.length) : lenGrow ar (updV ar i f) := by
  refine ⟨le_of_eq (length_updV ar i f).symm, fun j hj => ?_⟩
  by_cases hij : i = j
  · subst hij
    rw [getV_updV_self ar i f hj, hf]
  · rw [getV_updV_ne ar i j f hij]

theorem getV_append_lt (ar : List SAV) (v : SAV) (i : Nat) (h : i < ar.length) :
    getV (ar ++ [v]) i = getV ar i := by
  unfold getV
  rw [List.get?_append h]

theorem getV_append_self (ar : List SAV) (v : SAV) :
    getV (ar ++ [v]) ar.length = v := by
  unfold getV
  rw [List.get?_concat_length]
  rfl

theorem lenGrow_append (ar : List SAV) (v : SAV) : lenGrow ar (ar ++ [v]) :=
  ⟨by simp, fun i hi => by rw [getV_append_lt ar v i hi]⟩

theorem walkIns_lenGrow : ∀ fuel c vIdx ar p ar2 p2 q2,
    walkIns fuel c vIdx ar p = some (ar2, p2, q2) → lenGrow ar ar2 := by
  intro fuel
  induction fuel with
  | zero => intro c vIdx ar p ar2 p2 q2 h; exact absurd h (by simp [walkIns])
  | succ n ih =>
    intro c vIdx ar p ar2 p2 q2 h
    rw [walkIns] at h
    cases hl : lookupA (getV ar p).next c with
    | some q => rw [hl] at h; cases h; exact lenGrow_refl ar
    | none =>
      rw [hl] at h
      exact lenGrow_trans
        (lenGrow_updV ar p (fun x => { x with next := insertA x.next c vIdx })
          (fun x => rfl))
        (ih _ _ _ _ _ _ _ h)

theorem walkFix_lenGrow : ∀ fuel c qIdx clIdx ar p ar2,
    walkFix fuel c qIdx clIdx ar p = some ar2 → lenGrow ar ar2 := by
  intro fuel
  induction fuel with
  | zero => intro c qIdx clIdx ar p ar2 h; exact absurd h (by simp [walkFix])
  | succ n ih =>
    intro c qIdx clIdx ar p ar2 h
    rw [walkFix] at h
    by_cases hc : lookupA (getV ar p).next c = some qIdx
    · rw [if_pos hc] at h
      exact lenGrow_trans
        (lenGrow_updV ar p (fun x => { x with next := setA x.next c clIdx })
          (fun x => rfl))
        (ih _ _ _ _ _ _ h)
    · rw [if_neg hc] at h
      cases h
      exact lenGrow_refl ar

/-- Accuracy of a clone log with respect to an arena: every record points at a
real vertex whose stored length is length(p) + 1, and records a branch where
length(q) differed from length(p) + 1. -/
def logOk (log : List CloneRec) (ar : List SAV) : Prop :=
  ∀ r ∈ log, r.cloneIdx < ar.length ∧
    (getV ar r.cloneIdx).length = r.pLen + 1 ∧ r.qLen ≠ r.pLen + 1

theorem logOk_of_lenGrow {log : List CloneRec} {ar ar2 : List SAV}
    (h : logOk log ar) (hg : lenGrow ar ar2) : logOk log ar2 := by
  intro r hr
  obtain ⟨h1, h2, h3⟩ := h r hr
  exact ⟨lt_of_lt_of_le h1 hg.1, (hg.2 r.cloneIdx h1).trans h2, h3⟩

theorem logOk_snoc {log : List CloneRec} {arA ar1 ar5 : List SAV} {cl : SAV}
    {plen qlen : Nat}
    (h : logOk log arA) (hg1 : lenGrow arA ar1) (hg3 : lenGrow (ar1 ++ [cl]) ar5)
    (hcl : cl.length = plen + 1) (hne : qlen ≠ plen + 1) :
    logOk (log ++ [⟨plen, qlen, ar1.length⟩]) ar5 := by
  intro r hr
  rw [List.mem_append, List.mem_singleton] at hr
  cases hr with
  | inl hold =>
    exact logOk_of_lenGrow h
      (lenGrow_trans hg1 (lenGrow_trans (lenGrow_append ar1 cl) hg3)) r hold
  | inr hnew =>
    subst hnew
    have hlt : ar1.length < (ar1 ++ [cl]).length := by simp
    refine ⟨lt_of_lt_of_le hlt hg3.1, ?_, hne⟩
    rw [hg3.2 ar1.length hlt, getV_append_self, hcl]

theorem saStep_logOk {st : SAState} {c : Nat} {st2 : SAState}
    (h : logOk st.cloneLog st.arena) (hs : saStep st c = some st2) :
    logOk st2.cloneLog st2.arena := by
  simp only [saStep] at hs
  split at hs
  · exact absurd hs (by simp)
  next ar1 p q heq =>
    have hg1 : lenGrow st.arena ar1 :=
      lenGrow_trans (lenGrow_append st.arena _) (walkIns_lenGrow _ _ _ _ _ _ _ _ heq)
    split at hs
    · cases hs
      exact logOk_of_lenGrow h
        (lenGrow_trans hg1
          (lenGrow_updV ar1 _ (fun x => { x with suffixLink := 0 }) (fun x => rfl)))
    · split at hs
      · cases hs
        exact logOk_of_lenGrow h
          (lenGrow_trans hg1
            (lenGrow_updV ar1 _ (fun x => { x with suffixLink := q }) (fun x => rfl)))
      next hne =>
        split at hs
        · exact absurd hs (by simp)
        next ar5 heq2 =>
          cases hs
          refine logOk_snoc h hg1
            (lenGrow_trans
              (lenGrow_updV _ _ (fun x => { x with suffixLink := ar1.length }) (fun x => rfl))
              (lenGrow_trans
                (lenGrow_updV _ _ (fun x => { x with suffixLink := ar1.length }) (fun x => rfl))
                (walkFix_lenGrow _ _ _ _ _ _ _ heq2))) rfl hne

theorem foldl_saStep_none (s : List Nat) :
    s.foldl (fun acc c => acc.bind (fun st => saStep st c)) none = none := by
  induction s with
  | nil => rfl
  | cons c cs ih => simpa using ih

theorem saBuild_inv (P : SAState → Prop)
    (hstep : ∀ st c st2, P st → saStep st c = some st2 → P st2) :
    ∀ (s : List Nat) (st0 st2 : SAState), P st0 →
      s.foldl (fun acc c => acc.bind (fun st => saStep st c)) (some st0) = some st2 →
      P st2 := by
  intro s
  induction s with
  | nil =>
    intro st0 st2 h0 he
    simp only [List.foldl_nil, Option.some_inj] at he
    rwa [← he]
  | cons c cs ih =>
    intro st0 st2 h0 he
    rw [List.foldl_cons] at he
    cases hs : saStep st0 c with
    | none =>
      rw [show (some st0).bind (fun st => saStep st c) = none by simp [hs]] at he
      rw [foldl_saStep_none] at he
      exact absurd he (by simp)
    | some st1 =>
      rw [show (some st0).bind (fun st => saStep st c) = some st1 by simp [hs]] at he
      exact ih st1 st2 (hstep st0 c st1 h0 hs) he

/-- The final arena of the part_000 automaton build (empty when the build does
not complete). -/
def saArena (s : List Nat) : List SAV := ((saBuild s).map SAState.arena).getD []

/-- The clone log of the part_000 automaton build. -/
def saCloneLog (s : List Nat) : List CloneRec := ((saBuild s).map SAState.cloneLog).getD []

/-! ### The automaton parent chain spells a string of the recorded length

The parent and length fields of automaton vertices are written once, at
creation, and every non-root vertex's parent has a strictly smaller index and
a length exactly one smaller.  Consequently GetString materializes exactly
GetMaximalLength symbols — for every input, not only on the sampled corpus. -/

theorem getV_oob (ar : List SAV) (i : Nat) (h : ar.length ≤ i) : getV ar i = default := by
  unfold getV
  rw [List.get?_eq_none.2 h]
  rfl

theorem getV_updV_field {A : Type} (ar : List SAV) (i : Nat) (f : SAV → SAV) (j : Nat)
    (P : SAV → A) (hf : ∀ x, P (f x) = P x) :
    P (getV (updV ar i f) j) = P (getV ar j) := by
  by_cases hij : i = j
  · subst hij
    by_cases hlt : i < ar.length
    · rw [getV_updV_self ar i f hlt, hf]
    · have h1 : getV (updV ar i f) i = default :=
        getV_oob _ i (by rw [length_updV]; exact le_of_not_lt hlt)
      have h2 : getV ar i = default := getV_oob ar i (le_of_not_lt hlt)
      rw [h1, h2]
  · rw [getV_updV_ne ar i j f hij]

/-- Pointwise preservation of length, parent and suffix_link together with the
arena size: holds for every mutation of the builder except vertex creation. -/
def skelEq (ar ar2 : List SAV) : Prop :=
  ar2.length = ar.length ∧ ∀ i, (getV ar2 i).length = (getV ar i).length ∧
    (getV ar2 i).parent = (getV ar i).parent ∧
    (getV ar2 i).suffixLink = (getV ar i).suffixLink

theorem skelEq_refl (ar : List SAV) : skelEq ar ar := ⟨rfl, fun _ => ⟨rfl, rfl, rfl⟩⟩

theorem skelEq_trans {a b c : List SAV} (h1 : skelEq a b) (h2 : skelEq b c) : skelEq a c :=
  ⟨h2.1.trans h1.1, fun i =>
    ⟨(h2.2 i).1.trans (h1.2 i).1, (h2.2 i).2.1.trans (h1.2 i).2.1,
     (h2.2 i).2.2.trans (h1.2 i).2.2⟩⟩

theorem skelEq_updV_next (ar : List SAV) (i : Nat) (g : SAV → List (Nat × Nat)) :
    skelEq ar (updV ar i (fun x => { x with next := g x })) := by
  refine ⟨length_updV .., fun j => ⟨?_, ?_, ?_⟩⟩
  · exact getV_updV_field ar i _ j SAV.length (fun x => rfl)
  · exact getV_updV_field ar i _ j SAV.parent (fun x => rfl)
  · exact getV_updV_field ar i _ j SAV.suffixLink (fun x => rfl)

/-- Every entry of a sorted-insert result is an old entry or the new pair. -/
theorem insertA_mem : ∀ (m : List (Nat × Nat)) (c v : Nat) (cj : Nat × Nat),
    cj ∈ insertA m c v → cj ∈ m ∨ cj = (c, v) := by
  intro m
  induction m with
  | nil => intro c v cj h; simp [insertA] at h; exact Or.inr h
  | cons kw rest ih =>
    intro c v cj h
    rw [insertA] at h
    by_cases h1 : c < kw.1
    · rw [if_pos h1, List.mem_cons] at h
      rcases h with h | h
      · exact Or.inr h
      · exact Or.inl h
    · rw [if_neg h1] at h
      by_cases h2 : c = kw.1
      · rw [if_pos h2] at h
        exact Or.inl h
      · rw [if_neg h2] at h
        rw [List.mem_cons] at h
        rcases h with h | h
        · exact Or.inl (by rw [h]; exact List.mem_cons_self kw rest)
        · rcases ih c v cj h with h3 | h3
          · exact Or.inl (List.mem_cons_of_mem kw h3)
          · exact Or.inr h3

/-- Every entry of a keyed-overwrite result is an old entry or the new pair. -/
theorem setA_mem : ∀ (m : List (Nat × Nat)) (c v : Nat) (cj : Nat × Nat),
    cj ∈ setA m c v → cj ∈ m ∨ cj = (c, v) := by
  intro m
  induction m with
  | nil => intro c v cj h; simp [setA] at h
  | cons kw rest ih =>
    intro c v cj h
    rw [setA] at h
    by_cases h1 : kw.1 = c
    · rw [if_pos h1] at h
      rw [List.mem_cons] at h
      rcases h with h | h
      · exact Or.inr (by rw [h, h1])
      · exact Or.inl (List.mem_cons_of_mem kw h)
    · rw [if_neg h1] at h
      rw [List.mem_cons] at h
      rcases h with h | h
      · exact Or.inl (by rw [h]; exact List.mem_cons_self kw rest)
      · rcases ih c v cj h with h3 | h3
        · exact Or.inl (List.mem_cons_of_mem kw h3)
        · exact Or.inr h3

/-- A successful lookup returns a stored entry. -/
theorem lookupA_mem : ∀ (m : List (Nat × Nat)) (c w : Nat), lookupA m c = some w → (c, w) ∈ m := by
  intro m
  induction m with
  | nil => intro c w h; simp [lookupA] at h
  | cons kw rest ih =>
    intro c w h
    rw [lookupA] at h
    by_cases h1 : kw.1 = c
    · rw [if_pos h1] at h
      cases h
      exact by rw [← h1]; exact List.mem_cons_self kw rest
    · rw [if_neg h1] at h
      exact List.mem_cons_of_mem kw (ih c w h)

/-- All transition targets stored in the arena are real indices. -/
def nxOk (ar : List SAV) : Prop :=
  ∀ i, i < ar.length → ∀ cj ∈ (getV ar i).next, cj.2 < ar.length

/-- All suffix links stored in the arena are real indices. -/
def slOk (ar : List SAV) : Prop :=
  ∀ i, i < ar.length → (getV ar i).suffixLink < ar.length

theorem walkIns_wf : ∀ fuel c vIdx ar p ar2 p2 q2,
    walkIns fuel c vIdx ar p = some (ar2, p2, q2) →
    p < ar.length → vIdx < ar.length → slOk ar → nxOk ar →
    skelEq ar ar2 ∧ nxOk ar2 ∧ p2 < ar.length ∧ q2 < ar.length := by
  intro fuel
  induction fuel with
  | zero => intro c vIdx ar p ar2 p2 q2 h; exact absurd h (by simp [walkIns])
  | succ n ih =>
    intro c vIdx ar p ar2 p2 q2 h hp hv hsl hnx
    rw [walkIns] at h
    cases hl : lookupA (getV ar p).next c with
    | some q =>
      rw [hl] at h
      simp only [Option.some.injEq, Prod.mk.injEq] at h
      obtain ⟨rfl, rfl, rfl⟩ := h
      exact ⟨skelEq_refl _, hnx, hp, hnx _ hp _ (lookupA_mem _ _ _ hl)⟩
    | none =>
      rw [hl] at h
      have hskel : skelEq ar (updV ar p (fun x => { x with next := insertA x.next c vIdx })) :=
        skelEq_updV_next ar p _
      have hnx2 : nxOk (updV ar p (fun x => { x with next := insertA x.next c vIdx })) := by
        intro i hi cj hcj
        rw [hskel.1] at hi
        rw [hskel.1]
        by_cases hip : p = i
        · subst hip
          rw [getV_updV_self ar p _ hp] at hcj
          rcases insertA_mem _ c vIdx cj hcj with h3 | h3
          · exact hnx p hp cj h3
          · rw [h3]; exact hv
        · rw [getV_updV_ne ar p i _ hip] at hcj
          exact hnx i hi cj hcj
      have hres := ih c vIdx _ ((getV ar p).suffixLink) ar2 p2 q2 h
        (by rw [hskel.1]; exact hsl p hp)
        (by rw [hskel.1]; exact hv) ?_ hnx2
      · refine ⟨skelEq_trans hskel hres.1, hres.2.1, ?_, ?_⟩
        · have := hres.2.2.1
          rw [hskel.1] at this
          exact this
        · have := hres.2.2.2
          rw [hskel.1] at this
          exact this
      · intro i hi
        rw [hskel.1] at hi
        rw [(hskel.2 i).2.2, hskel.1]
        exact hsl i hi

theorem walkFix_wf : ∀ fuel c qIdx clIdx ar p ar2,
    walkFix fuel c qIdx clIdx ar p = some ar2 →
    clIdx < ar.length → slOk ar → nxOk ar →
    skelEq ar ar2 ∧ nxOk ar2 := by
  intro fuel
  induction fuel with
  | zero => intro c qIdx clIdx ar p ar2 h; exact absurd h (by simp [walkFix])
  | succ n ih =>
    intro c qIdx clIdx ar p ar2 h hcl hsl hnx
    rw [walkFix] at h
    by_cases hc : lookupA (getV ar p).next c = some qIdx
    · rw [if_pos hc] at h
      have hskel : skelEq ar (updV ar p (fun x => { x with next := setA x.next c clIdx })) :=
        skelEq_updV_next ar p _
      have hnx2 : nxOk (updV ar p (fun x => { x with next := setA x.next c clIdx })) := by
        intro i hi cj hcj
        rw [hskel.1] at hi
        rw [hskel.1]
        by_cases hip : p = i
        · subst hip
          by_cases hplt : p < ar.length
          · rw [getV_updV_self ar p _ hplt] at hcj
            rcases setA_mem _ c clIdx cj hcj with h3 | h3
            · exact hnx p hplt cj h3
            · rw [h3]; exact hcl
          · exact absurd hi hplt
        · rw [getV_updV_ne ar p i _ hip] at hcj
          exact hnx i hi cj hcj
      have hres := ih c qIdx clIdx _ ((getV ar p).suffixLink) ar2 h
        (by rw [hskel.1]; exact hcl) ?_ hnx2
      · exact ⟨skelEq_trans hskel hres.1, hres.2⟩
      · intro i hi
        rw [hskel.1] at hi
        rw [(hskel.2 i).2.2, hskel.1]
        exact hsl i hi
    · rw [if_neg hc] at h
      cases h
      exact ⟨skelEq_refl ar, hnx⟩

/-- The parent skeleton is well formed: the root has no parent and length 0,
and every other vertex has a parent of strictly smaller index whose length is
exactly one smaller. -/
def parOk (ar : List SAV) : Prop :=
  (getV ar 0).parent = none ∧ (getV ar 0).length = 0 ∧
  ∀ i, 0 < i → i < ar.length → ∃ p2, (getV ar i).parent = some p2 ∧ p2 < i ∧
    (getV ar i).length = (getV ar p2).length + 1

theorem parOk_skelEq {ar ar2 : List SAV} (h : parOk ar) (hs : skelEq ar ar2) : parOk ar2 := by
  refine ⟨(hs.2 0).2.1.trans h.1, (hs.2 0).1.trans h.2.1, fun i h0 hi => ?_⟩
  rw [hs.1] at hi
  obtain ⟨p2, hp, hpi, hlen⟩ := h.2.2 i h0 hi
  exact ⟨p2, (hs.2 i).2.1.trans hp, hpi, ((hs.2 i).1.trans hlen).trans (by rw [(hs.2 p2).1])⟩

theorem parOk_updV (ar : List SAV) (i : Nat) (f : SAV → SAV)
    (hflen : ∀ x, (f x).length = x.length) (hfpar : ∀ x, (f x).parent = x.parent)
    (h : parOk ar) : parOk (updV ar i f) := by
  refine ⟨(getV_updV_field ar i f 0 SAV.parent hfpar).trans h.1,
    (getV_updV_field ar i f 0 SAV.length hflen).trans h.2.1, fun j h0 hj => ?_⟩
  rw [length_updV] at hj
  obtain ⟨p2, hp, hpi, hlen⟩ := h.2.2 j h0 hj
  refine ⟨p2, (getV_updV_field ar i f j SAV.parent hfpar).trans hp, hpi, ?_⟩
  rw [getV_updV_field ar i f j SAV.length hflen,
    getV_updV_field ar i f p2 SAV.length hflen]
  exact hlen

theorem parOk_append {ar : List SAV} {v : SAV} {pv : Nat} (h : parOk ar)
    (hpos : 0 < ar.length) (hvp : v.parent = some pv) (hpv : pv < ar.length)
    (hvl : v.length = (getV ar pv).length + 1) : parOk (ar ++ [v]) := by
  refine ⟨by rw [getV_append_lt ar v 0 hpos]; exact h.1,
    by rw [getV_append_lt ar v 0 hpos]; exact h.2.1, fun i h0 hi => ?_⟩
  rw [List.length_append, List.length_singleton] at hi
  by_cases hio : i < ar.length
  · obtain ⟨p2, hp, hpi, hlen⟩ := h.2.2 i h0 hio
    exact ⟨p2, by rw [getV_append_lt ar v i hio]; exact hp, hpi,
      by rw [getV_append_lt ar v i hio, getV_append_lt ar v p2 (lt_trans hpi hio)]; exact hlen⟩
  · have hieq : i = ar.length := by omega
    subst hieq
    rw [getV_append_self]
    exact ⟨pv, hvp, hpv, by rw [getV_append_lt ar v pv hpv]; exact hvl⟩

theorem slOk_skelEq {ar ar2 : List SAV} (h : slOk ar) (hs : skelEq ar ar2) : slOk ar2 := by
  intro i hi
  rw [hs.1] at hi
  rw [(hs.2 i).2.2, hs.1]
  exact h i hi

theorem nxOk_skelEq {ar ar2 : List SAV} (h : nxOk ar) (hs : skelEq ar ar2)
    (hnext : ∀ i, (getV ar2 i).next = (getV ar i).next) : nxOk ar2 := by
  intro i hi cj hcj
  rw [hs.1] at hi
  rw [hnext i] at hcj
  rw [hs.1]
  exact h i hi cj hcj

theorem slOk_append {ar : List SAV} {v : SAV} (h : slOk ar)
    (hv : v.suffixLink < ar.length + 1) : slOk (ar ++ [v]) := by
  intro i hi
  rw [List.length_append, List.length_singleton] at hi ⊢
  by_cases hio : i < ar.length
  · rw [getV_append_lt ar v i hio]
    exact lt_trans (h i hio) (by omega)
  · have hieq : i = ar.length := by omega
    subst hieq
    rw [getV_append_self]
    exact hv

theorem nxOk_append {ar : List SAV} {v : SAV} (h : nxOk ar)
    (hv : ∀ cj ∈ v.next, cj.2 < ar.length + 1) : nxOk (ar ++ [v]) := by
  intro i hi cj hcj
  rw [List.length_append, List.length_singleton] at hi ⊢
  by_cases hio : i < ar.length
  · rw [getV_append_lt ar v i hio] at hcj
    exact lt_trans (h i hio cj hcj) (by omega)
  · have hieq : i = ar.length := by omega
    subst hieq
    rw [getV_append_self] at hcj
    exact hv cj hcj

theorem slOk_updV_set (ar : List SAV) (i t : Nat) (h : slOk ar) (ht : t < ar.length) :
    slOk (updV ar i (fun x => { x with suffixLink := t })) := by
  intro j hj
  rw [length_updV] at hj
  rw [length_updV]
  by_cases hij : i = j
  · subst hij
    rw [getV_updV_self ar i _ hj]
    exact ht
  · rw [getV_updV_ne ar i j _ hij]
    exact h j hj

theorem nxOk_updV_keep (ar : List SAV) (i : Nat) (f : SAV → SAV)
    (hf : ∀ x, (f x).next = x.next) (h : nxOk ar) : nxOk (updV ar i f) := by
  intro j hj cj hcj
  rw [length_updV] at hj
  rw [getV_updV_field ar i f j SAV.next hf] at hcj
  rw [length_updV]
  exact h j hj cj hcj

/-- The builder-state invariant: nonempty arena, valid last_, well-formed
parent skeleton, and in-range suffix links and transition targets. -/
def saWF (st : SAState) : Prop :=
  0 < st.arena.length ∧ st.lastIdx < st.arena.length ∧ parOk st.arena ∧
    slOk st.arena ∧ nxOk st.arena

theorem saStep_wf {st : SAState} {c : Nat} {st2 : SAState}
    (hw : saWF st) (hs : saStep st c = some st2) : saWF st2 := by
  obtain ⟨hpos, hlast, hpar, hsl, hnx⟩ := hw
  simp only [saStep] at hs
  split at hs
  · exact absurd hs (by simp)
  next ar1 p q heq =>
    have hpar0 : parOk (st.arena ++
        [{ edgeChar := c, suffixLink := 0, parent := some st.lastIdx,
           length := (getV st.arena st.lastIdx).length + 1, numOfOccurrences := 0,
           next := [], isTerminal := false }]) :=
      parOk_append hpar hpos rfl hlast rfl
    have hsl0 : slOk (st.arena ++
        [{ edgeChar := c, suffixLink := 0, parent := some st.lastIdx,
           length := (getV st.arena st.lastIdx).length + 1, numOfOccurrences := 0,
           next := [], isTerminal := false }]) :=
      slOk_append hsl (by simp)
    have hnx0 : nxOk (st.arena ++
        [{ edgeChar := c, suffixLink := 0, parent := some st.lastIdx,
           length := (getV st.arena st.lastIdx).length + 1, numOfOccurrences := 0,
           next := [], isTerminal := false }]) :=
      nxOk_append hnx (by simp)
    have hlen0 : (st.arena ++
        [({ edgeChar := c, suffixLink := 0, parent := some st.lastIdx,
            length := (getV st.arena st.lastIdx).length + 1, numOfOccurrences := 0,
            next := [], isTerminal := false } : SAV)]).length = st.arena.length + 1 := by simp
    have hwi := walkIns_wf _ _ _ _ _ _ _ _ heq
      (by rw [hlen0]; omega) (by rw [hlen0]; omega) hsl0 hnx0
    obtain ⟨hskel1, hnx1, hp1, hq1⟩ := hwi
    have hpar1 : parOk ar1 := parOk_skelEq hpar0 hskel1
    have hsl1 : slOk ar1 := slOk_skelEq hsl0 hskel1
    have hlen1 : ar1.length = st.arena.length + 1 := by rw [hskel1.1, hlen0]
    split at hs
    · cases hs
      refine ⟨by dsimp only; rw [length_updV, hlen1]; omega,
        by dsimp only; rw [length_updV, hlen1]; omega,
        parOk_updV ar1 st.arena.length (fun x => { x with suffixLink := 0 })
          (fun x => rfl) (fun x => rfl) hpar1,
        slOk_updV_set ar1 st.arena.length 0 hsl1 (by rw [hlen1]; omega),
        nxOk_updV_keep ar1 st.arena.length (fun x => { x with suffixLink := 0 })
          (fun x => rfl) hnx1⟩
    · split at hs
      · cases hs
        refine ⟨by dsimp only; rw [length_updV, hlen1]; omega,
          by dsimp only; rw [length_updV, hlen1]; omega,
          parOk_updV ar1 st.arena.length (fun x => { x with suffixLink := q })
            (fun x => rfl) (fun x => rfl) hpar1,
          slOk_updV_set ar1 st.arena.length q hsl1 (by rw [hlen1, ← hlen0]; exact hq1),
          nxOk_updV_keep ar1 st.arena.length (fun x => { x with suffixLink := q })
            (fun x => rfl) hnx1⟩
      · split at hs
        · exact absurd hs (by simp)
        next ar5 heq2 =>
          cases hs
          have hq1down : q < ar1.length := by rw [hlen1, ← hlen0]; exact hq1
          have hp1down : p < ar1.length := by rw [hlen1, ← hlen0]; exact hp1
          have hpar2 : parOk (ar1 ++
              [{ edgeChar := c, suffixLink := (getV ar1 q).suffixLink, parent := some p,
                 length := (getV ar1 p).length + 1, numOfOccurrences := 0,
                 next := (getV ar1 q).next, isTerminal := false }]) :=
            parOk_append hpar1 (by omega) rfl hp1down rfl
          have hsl2 : slOk (ar1 ++
              [{ edgeChar := c, suffixLink := (getV ar1 q).suffixLink, parent := some p,
                 length := (getV ar1 p).length + 1, numOfOccurrences := 0,
                 next := (getV ar1 q).next, isTerminal := false }]) :=
            slOk_append hsl1 (lt_trans (hsl1 q hq1down) (by omega))
          have hnx2 : nxOk (ar1 ++
              [{ edgeChar := c, suffixLink := (getV ar1 q).suffixLink, parent := some p,
                 length := (getV ar1 p).length + 1, numOfOccurrences := 0,
                 next := (getV ar1 q).next, isTerminal := false }]) :=
            nxOk_append hnx1 (fun cj hcj => lt_trans (hnx1 q hq1down cj hcj) (by omega))
          have hlen2 : (ar1 ++
              [({ edgeChar := c, suffixLink := (getV ar1 q).suffixLink, parent := some p,
                  length := (getV ar1 p).length + 1, numOfOccurrences := 0,
                  next := (getV ar1 q).next, isTerminal := false } : SAV)]).length
              = ar1.length + 1 := by simp
          have hpar3 := parOk_updV _ st.arena.length (fun x => { x with suffixLink := ar1.length })
            (fun x => rfl) (fun x => rfl) hpar2
          have hsl3 := slOk_updV_set _ st.arena.length ar1.length hsl2 (by rw [hlen2]; omega)
          have hnx3 := nxOk_updV_keep _ st.arena.length
            (fun x => { x with suffixLink := ar1.length }) (fun x => rfl) hnx2
          have hpar4 := parOk_updV _ q (fun x => { x with suffixLink := ar1.length })
            (fun x => rfl) (fun x => rfl) hpar3
          have hsl4 := slOk_updV_set _ q ar1.length hsl3 (by rw [length_updV, hlen2]; omega)
          have hnx4 := nxOk_updV_keep _ q
            (fun x => { x with suffixLink := ar1.length }) (fun x => rfl) hnx3
          have hwf := walkFix_wf _ _ _ _ _ _ _ heq2
            (by rw [length_updV, length_updV, hlen2]; omega) hsl4 hnx4
          obtain ⟨hskel5, hnx5⟩ := hwf
          have hlen5 : ar5.length = ar1.length + 1 := by
            rw [hskel5.1, length_updV, length_updV, hlen2]
          refine ⟨by dsimp only; omega, by dsimp only; omega, parOk_skelEq hpar4 hskel5,
            slOk_skelEq hsl4 hskel5, hnx5⟩

theorem skelEq_updV_of (ar : List SAV) (i : Nat) (f : SAV → SAV)
    (hl : ∀ x, (f x).length = x.length) (hp : ∀ x, (f x).parent = x.parent)
    (hs : ∀ x, (f x).suffixLink = x.suffixLink) :
    skelEq ar (updV ar i f) := by
  refine ⟨length_updV .., fun j => ⟨?_, ?_, ?_⟩⟩
  · exact getV_updV_field ar i f j SAV.length hl
  · exact getV_updV_field ar i f j SAV.parent hp
  · exact getV_updV_field ar i f j SAV.suffixLink hs

/-- Pointwise preservation of every field except the counters is what the
finalization passes guarantee: they only rewrite is_terminal and
num_of_occurrences. -/
def statEq (ar ar2 : List SAV) : Prop :=
  ar2.length = ar.length ∧ ∀ i, (getV ar2 i).length = (getV ar i).length ∧
    (getV ar2 i).parent = (getV ar i).parent ∧
    (getV ar2 i).suffixLink = (getV ar i).suffixLink ∧
    (getV ar2 i).next = (getV ar i).next

theorem statEq_refl (ar : List SAV) : statEq ar ar := ⟨rfl, fun _ => ⟨rfl, rfl, rfl, rfl⟩⟩

theorem statEq_trans {a b c : List SAV} (h1 : statEq a b) (h2 : statEq b c) : statEq a c :=
  ⟨h2.1.trans h1.1, fun i =>
    ⟨(h2.2 i).1.trans (h1.2 i).1, (h2.2 i).2.1.trans (h1.2 i).2.1,
     (h2.2 i).2.2.1.trans (h1.2 i).2.2.1, (h2.2 i).2.2.2.trans (h1.2 i).2.2.2⟩⟩

theorem statEq_skelEq {ar ar2 : List SAV} (h : statEq ar ar2) : skelEq ar ar2 :=
  ⟨h.1, fun i => ⟨(h.2 i).1, (h.2 i).2.1, (h.2 i).2.2.1⟩⟩

theorem statEq_updV_of (ar : List SAV) (i : Nat) (f : SAV → SAV)
    (hl : ∀ x, (f x).length = x.length) (hp : ∀ x, (f x).parent = x.parent)
    (hs : ∀ x, (f x).suffixLink = x.suffixLink) (hn : ∀ x, (f x).next = x.next) :
    statEq ar (updV ar i f) := by
  refine ⟨length_updV .., fun j => ⟨?_, ?_, ?_, ?_⟩⟩
  · exact getV_updV_field ar i f j SAV.length hl
  · exact getV_updV_field ar i f j SAV.parent hp
  · exact getV_updV_field ar i f j SAV.suffixLink hs
  · exact getV_updV_field ar i f j SAV.next hn

theorem nxOk_statEq {ar ar2 : List SAV} (h : nxOk ar) (hs : statEq ar ar2) : nxOk ar2 := by
  intro i hi cj hcj
  rw [hs.1] at hi
  rw [(hs.2 i).2.2.2] at hcj
  rw [hs.1]
  exact h i hi cj hcj

theorem saMark_statEq : ∀ fuel ar v ar2, saMark fuel ar v = some ar2 → statEq ar ar2 := by
  intro fuel
  induction fuel with
  | zero => intro ar v ar2 h; exact absurd h (by simp [saMark])
  | succ n ih =>
    intro ar v ar2 h
    rw [saMark] at h
    by_cases hv : v = 0
    · rw [if_pos hv] at h
      cases h
      exact statEq_refl ar
    · rw [if_neg hv] at h
      exact statEq_trans
        (statEq_updV_of ar v (fun x => { x with isTerminal := true })
          (fun x => rfl) (fun x => rfl) (fun x => rfl) (fun x => rfl))
        (ih _ _ _ h)

theorem saDfsGo_statEq : ∀ fuel ar seen out x ar2 seen2 out2,
    saDfsGo fuel ar seen out x = some (ar2, seen2, out2) → statEq ar ar2 := by
  intro fuel
  induction fuel with
  | zero => intro ar seen out x ar2 seen2 out2 h; exact absurd h (by simp [saDfsGo])
  | succ n ih =>
    intro ar seen out x ar2 seen2 out2 h
    match x with
    | Sum.inl v =>
      rw [saDfsGo] at h
      by_cases hv : seen.contains v
      · rw [if_pos hv] at h
        simp only [Option.some.injEq, Prod.mk.injEq] at h
        obtain ⟨rfl, rfl, rfl⟩ := h
        exact statEq_refl _
      · rw [if_neg hv] at h
        have hbody : ∀ (a : List SAV) (b c : List Nat),
            saDfsGo n
              (updV ar v (fun z => { z with numOfOccurrences := if z.isTerminal then 1 else 0 }))
              (v :: seen) out
              (Sum.inr ((getV
                (updV ar v (fun z => { z with numOfOccurrences := if z.isTerminal then 1 else 0 }))
                v).next, v)) = some (a, b, c) →
            ar2 = a → statEq ar ar2 := by
          intro a b c heq hr
          subst hr
          exact statEq_trans
            (statEq_updV_of ar v
              (fun z => { z with numOfOccurrences := if z.isTerminal then 1 else 0 })
              (fun z => rfl) (fun z => rfl) (fun z => rfl) (fun z => rfl))
            (ih _ _ _ _ _ _ _ heq)
        by_cases hv0 : v = 0
        · simp only [if_pos hv0] at h
          split at h
          · exact absurd h (by simp)
          next a b c heq =>
            simp only [Option.some.injEq, Prod.mk.injEq] at h
            exact hbody a b c heq h.1.symm
        · simp only [if_neg hv0] at h
          split at h
          · exact absurd h (by simp)
          next a b c heq =>
            simp only [Option.some.injEq, Prod.mk.injEq] at h
            exact hbody a b c heq h.1.symm
    | Sum.inr ([], v) =>
      rw [saDfsGo] at h
      simp only [Option.some.injEq, Prod.mk.injEq] at h
      obtain ⟨rfl, rfl, rfl⟩ := h
      exact statEq_refl _
    | Sum.inr ((d, w) :: rest, v) =>
      rw [saDfsGo] at h
      split at h
      · exact absurd h (by simp)
      next a b c heq =>
        exact statEq_trans (ih _ _ _ _ _ _ _ heq)
          (statEq_trans
            (statEq_updV_of a v
              (fun z => { z with numOfOccurrences := z.numOfOccurrences + (getV a w).numOfOccurrences })
              (fun z => rfl) (fun z => rfl) (fun z => rfl) (fun z => rfl))
            (ih _ _ _ _ _ _ _ h))

theorem saDfsGo_out_sub : ∀ fuel ar seen out x ar2 seen2 out2,
    saDfsGo fuel ar seen out x = some (ar2, seen2, out2) →
    nxOk ar →
    (∀ v, x = Sum.inl v → v < ar.length) →
    (∀ kids v, x = Sum.inr (kids, v) → ∀ cj ∈ kids, cj.2 < ar.length) →
    ∀ j, j ∈ out2 → j ∈ out ∨ (0 < j ∧ j < ar.length) := by
  intro fuel
  induction fuel with
  | zero => intro ar seen out x ar2 seen2 out2 h; exact absurd h (by simp [saDfsGo])
  | succ n ih =>
    intro ar seen out x ar2 seen2 out2 h hnx hinl hinr j
    match x with
    | Sum.inl v =>
      rw [saDfsGo] at h
      by_cases hv : seen.contains v
      · rw [if_pos hv] at h
        simp only [Option.some.injEq, Prod.mk.injEq] at h
        obtain ⟨rfl, rfl, rfl⟩ := h
        exact fun hj => Or.inl hj
      · rw [if_neg hv] at h
        have hvlt : v < ar.length := hinl v rfl
        have hst : statEq ar
            (updV ar v (fun z => { z with numOfOccurrences := if z.isTerminal then 1 else 0 })) :=
          statEq_updV_of ar v
            (fun z => { z with numOfOccurrences := if z.isTerminal then 1 else 0 })
            (fun z => rfl) (fun z => rfl) (fun z => rfl) (fun z => rfl)
        have hbody : ∀ (a : List SAV) (b c : List Nat),
            saDfsGo n
              (updV ar v (fun z => { z with numOfOccurrences := if z.isTerminal then 1 else 0 }))
              (v :: seen) out
              (Sum.inr ((getV
                (updV ar v (fun z => { z with numOfOccurrences := if z.isTerminal then 1 else 0 }))
                v).next, v)) = some (a, b, c) →
            ∀ i2, i2 ∈ c → i2 ∈ out ∨ (0 < i2 ∧ i2 < ar.length) := by
          intro a b c heq i2 hi2
          rcases ih _ _ _ _ _ _ _ heq (nxOk_statEq hnx hst)
            (fun w hw => absurd hw (by simp))
            (fun kids w hkw cj hcj => by
              simp only [Sum.inr.injEq, Prod.mk.injEq] at hkw
              rw [← hkw.1, (hst.2 v).2.2.2] at hcj
              rw [hst.1]
              exact hnx v hvlt cj hcj) i2 hi2 with h3 | h3
          · exact Or.inl h3
          · rw [hst.1] at h3
            exact Or.inr h3
        by_cases hv0 : v = 0
        · simp only [if_pos hv0] at h
          split at h
          · exact absurd h (by simp)
          next a b c heq =>
            simp only [Option.some.injEq, Prod.mk.injEq] at h
            intro hj
            rw [← h.2.2] at hj
            exact hbody a b c heq j hj
        · simp only [if_neg hv0] at h
          split at h
          · exact absurd h (by simp)
          next a b c heq =>
            simp only [Option.some.injEq, Prod.mk.injEq] at h
            intro hj
            rw [← h.2.2] at hj
            rw [List.mem_append, List.mem_singleton] at hj
            rcases hj with hj | hj
            · exact hbody a b c heq j hj
            · subst hj
              exact Or.inr ⟨Nat.pos_of_ne_zero hv0, hvlt⟩
    | Sum.inr ([], v) =>
      rw [saDfsGo] at h
      simp only [Option.some.injEq, Prod.mk.injEq] at h
      obtain ⟨rfl, rfl, rfl⟩ := h
      exact fun hj => Or.inl hj
    | Sum.inr ((d, w) :: rest, v) =>
      rw [saDfsGo] at h
      split at h
      · exact absurd h (by simp)
      next a b c heq =>
        intro hj
        have hwlt : w < ar.length :=
          hinr ((d, w) :: rest) v rfl (d, w) (List.mem_cons_self _ _)
        have hst1 : statEq ar a := saDfsGo_statEq _ _ _ _ _ _ _ _ heq
        have hst2 : statEq a
            (updV a v (fun z => { z with numOfOccurrences := z.numOfOccurrences + (getV a w).numOfOccurrences })) :=
          statEq_updV_of a v _ (fun z => rfl) (fun z => rfl) (fun z => rfl) (fun z => rfl)
        have hrest := ih _ _ _ _ _ _ _ h
          (nxOk_statEq hnx (statEq_trans hst1 hst2))
          (fun w2 hw2 => absurd hw2 (by simp))
          (fun kids w2 hkw cj hcj => by
            simp only [Sum.inr.injEq, Prod.mk.injEq] at hkw
            rw [← hkw.1] at hcj
            rw [(statEq_trans hst1 hst2).1]
            exact hinr ((d, w) :: rest) v rfl cj (List.mem_cons_of_mem _ hcj)) j hj
        rcases hrest with h3 | h3
        · rcases ih _ _ _ _ _ _ _ heq hnx
            (fun w2 hw2 => by
              simp only [Sum.inl.injEq] at hw2
              rw [← hw2]
              exact hwlt)
            (fun kids w2 hkw => absurd hkw (by simp)) j h3 with h4 | h4
          · exact Or.inl h4
          · exact Or.inr h4
        · rw [(statEq_trans hst1 hst2).1] at h3
          exact Or.inr h3

theorem saChain_length : ∀ fuel ar v, parOk ar → v < ar.length → v < fuel →
    (saChain fuel ar (some v)).length = (getV ar v).length := by
  intro fuel
  induction fuel with
  | zero => intro ar v _ _ hf; exact absurd hf (by omega)
  | succ n ih =>
    intro ar v hpar hv hf
    rw [saChain]
    by_cases h0 : v = 0
    · subst h0
      simp only [hpar.1]
      rw [hpar.2.1]
      rfl
    · obtain ⟨p2, hp, hpi, hlen⟩ := hpar.2.2 v (Nat.pos_of_ne_zero h0) hv
      simp only [hp]
      rw [List.length_cons, ih ar p2 hpar (lt_trans hpi hv) (by omega), hlen]

theorem saGetString_length (ar : List SAV) (i : Nat) (hpar : parOk ar)
    (h0 : 0 < i) (hi : i < ar.length) :
    (saGetString ar i).length = (getV ar i).length := by
  obtain ⟨p2, hp, hpi, hlen⟩ := hpar.2.2 i h0 hi
  rw [saGetString, List.length_reverse, List.length_cons, hp,
    saChain_length (ar.length + 1) ar p2 hpar (lt_trans hpi hi) (by omega)]
  omega

theorem saWF_init : saWF ⟨[saRoot], 0, []⟩ := by
  refine ⟨by decide, by decide, ⟨rfl, rfl, fun i h0 hi => ?_⟩,
    fun i hi => ?_, fun i hi cj hcj => ?_⟩
  · simp only [List.length_singleton] at hi; omega
  · simp only [List.length_singleton] at hi ⊢
    have h2 : i = 0 := by omega
    subst h2
    decide
  · simp only [List.length_singleton] at hi
    have h2 : i = 0 := by omega
    subst h2
    exact absurd hcj (by simp [getV, saRoot])

theorem saBuild_wf {s : List Nat} {st : SAState} (h : saBuild s = some st) : saWF st := by
  rw [saBuild] at h
  exact saBuild_inv saWF (fun st0 c st2 hp hs => saStep_wf hp hs) s ⟨[saRoot], 0, []⟩ st
    saWF_init h

theorem saString_length_eq (s : List Nat) (st : SAState) (ar : List SAV) (out : List Nat)
    (hb : saBuild s = some st) (hf : saFinally st = some (ar, out)) :
    ∀ i ∈ out, (saGetString ar i).length = (getV ar i).length := by
  obtain ⟨hpos, hlast, hpar, hsl, hnx⟩ := saBuild_wf hb
  simp only [saFinally] at hf
  split at hf
  · exact absurd hf (by simp)
  next ar1 heq1 =>
    split at hf
    · exact absurd hf (by simp)
    next a b c heq2 =>
      simp only [Option.some.injEq, Prod.mk.injEq] at hf
      obtain ⟨rfl, rfl⟩ := hf
      have hst0 : statEq st.arena (updV st.arena 0 (fun x => { x with isTerminal := true })) :=
        statEq_updV_of st.arena 0 (fun x => { x with isTerminal := true })
          (fun x => rfl) (fun x => rfl) (fun x => rfl) (fun x => rfl)
      have hst1 : statEq (updV st.arena 0 (fun x => { x with isTerminal := true })) ar1 :=
        saMark_statEq _ _ _ _ heq1
      have hst2 : statEq ar1 a := saDfsGo_statEq _ _ _ _ _ _ _ _ heq2
      have hpar2 : parOk a :=
        parOk_skelEq hpar (statEq_skelEq (statEq_trans hst0 (statEq_trans hst1 hst2)))
      have hlen1 : ar1.length = st.arena.length := (statEq_trans hst0 hst1).1
      have hsub := saDfsGo_out_sub _ _ _ _ _ _ _ _ heq2
        (nxOk_statEq hnx (statEq_trans hst0 hst1))
        (fun v hv => by
          simp only [Sum.inl.injEq] at hv
          rw [← hv, hlen1]
          exact hpos)
        (fun kids v hkv => absurd hkv (by simp))
      intro i hi
      rcases hsub i hi with h3 | h3
      · exact absurd h3 (by simp)
      · exact saGetString_length a i hpar2 h3.1 (by rw [hst2.1]; exact h3.2)

/-- Every exposed (GetString, GetMaximalLength, GetNumOfOccurrences) triple of
the finalized part_000 automaton has a string of exactly GetMaximalLength
symbols, for every input. -/
theorem saMachine_length_eq (s : List Nat) (ms : List (List Nat × Nat × Nat))
    (h : saMachine s = some ms) : ∀ t ∈ ms, t.1.length = t.2.1 := by
  simp only [saMachine] at h
  split at h
  · exact absurd h (by simp)
  next st heq1 =>
    split at h
    · exact absurd h (by simp)
    next ar out heq2 =>
      simp only [Option.some.injEq] at h
      subst h
      intro t ht
      rw [List.mem_map] at ht
      obtain ⟨i, hi, rfl⟩ := ht
      exact saString_length_eq s st ar out heq1 heq2 i hi

/-! ### Claim theorems -/

/-- Claim C3: during part_000 suffix-automaton construction, whenever the
clone branch is reached (that is, q = p.transitions[c] has
length(q) different from length(p) + 1, as the record witnesses), the created
clone is assigned length(p) + 1 — its length in the final arena is
pLen + 1, not qLen. -/
theorem clone_length_assignment (s : List Nat) (r : CloneRec) (hr : r ∈ saCloneLog s) :
    (getV (saArena s) r.cloneIdx).length = r.pLen + 1 ∧ r.qLen ≠ r.pLen + 1 := by
  unfold saCloneLog at hr
  unfold saArena
  cases hb : saBuild s with
  | none =>
    rw [hb] at hr
    simp only [Option.map_none', Option.getD_none] at hr
    exact absurd hr (List.not_mem_nil r)
  | some st =>
    rw [hb] at hr
    simp only [Option.map_some', Option.getD_some] at hr ⊢
    unfold saBuild at hb
    have hall : logOk st.cloneLog st.arena :=
      saBuild_inv (fun x => logOk x.cloneLog x.arena)
        (fun _ _ _ hP hsp => saStep_logOk hP hsp) s ⟨[saRoot], 0, []⟩ st
        (fun r hr => absurd hr (by simp)) hb
    exact ⟨(hall r hr).2.1, (hall r hr).2.2⟩

/-- Witness for C3: on input aabb ([0,0,1,1]) the clone branch runs once, with
length(p) = 0 and length(q) = 3, and the clone (arena index 5) has final
length 1 = length(p) + 1. -/
theorem clone_length_assignment_witness :
    (getV (saArena [0, 0, 1, 1]) (CloneRec.mk 0 3 5).cloneIdx).length
        = (CloneRec.mk 0 3 5).pLen + 1 ∧
      (CloneRec.mk 0 3 5).qLen ≠ (CloneRec.mk 0 3 5).pLen + 1 :=
  clone_length_assignment [0, 0, 1, 1] (CloneRec.mk 0 3 5) (by decide)

/-- The Strings.cpp revision assigns length(q) to the clone instead: on the
same input its clone (arena index 5) ends with length 3 = length(q). -/
theorem clone_length_assignment_revR : (getV (saArenaR [0, 0, 1, 1]) 5).length = 3 := by decide

/-- Claim C1, counterexample: on input aab ([0,0,1]) the multiset of
(maximal_length, occurrence_count) pairs enumerated by the finalized suffix
automaton differs from the one enumerated by the finalized suffix tree — the
tree also reports the pair (1, 1) for the leaf of the implicit suffix b, which
the automaton merges into the state of aab. -/
theorem crossCheck_counterexample :
    ¬ ((saPairs [0, 0, 1] : Multiset (Nat × Nat)) = (stPairs [0, 0, 1] : Multiset (Nat × Nat))) := by
  decide

/-- Claim C1, amended: for every input in the exhaustive small-input corpus
(all binary strings of length at most 5 and all ternary strings of length at
most 4), both builders complete, and the multisets of (length,
occurrence_count) pairs obtained by expanding each enumerated state/vertex
over its full represented length range coincide. -/
theorem crossCheck_expanded_small : corpusSmall.all chkCross = true := by decide

/-- Claim C2 evidence (universal statement not settled here): on the same
exhaustive corpus, every entry enumerated by either builder reports
occurrence_count equal to the brute-force number of start positions of its
representative substring, and maximal_length equal to that substring's length. -/
theorem oracle_small : corpusSmall.all chkOracle = true := by decide

/-- Claim C4 (code_bug evidence): in the Strings.cpp revision ProcessVertex
pushes every vertex unconditionally, so already on input [0] the exposed
enumeration contains the root (index 0). -/
theorem saEnumR_yields_root : saOutR [0] = [1, 0] := by decide

/-- Claim C4, part_000 evidence: on the exhaustive corpus, the part_000
enumeration of either builder yields exactly the non-root arena indices, each
exactly once, and the automaton root is marked terminal for aggregation while
being excluded from the enumeration. -/
theorem enum_coverage_small :
    corpusSmall.all (fun s => chkCoverage s && chkCoverageT s) = true := by decide

/-- Claim C5, counterexample: on input aa ([0,0]) the finalized tree has a
reported vertex (the internal vertex for the string a, marked terminal by
finalization) whose occurrence_count (2) differs from the number of leaves in
its subtree (1) — so occurrence_count is not the plain leaf count. -/
theorem occ_leaves_counterexample : chkOccLeaves [0, 0] = false := by decide

/-- Claim C5, amended: ProcessVertex computes occurrence_count(v) =
(1 if terminal else 0) + sum over children; equivalently, on the exhaustive
corpus every reported tree vertex has occurrence_count equal to the number of
terminal vertices in its subtree (every leaf is terminal, and finalization
marks the suffix chain of the last active point terminal as well). -/
theorem occ_terminal_small : corpusSmall.all chkOccTerm = true := by decide

/-- Claim C6: for the empty input both constructions succeed and expose zero
reportable states, and the iterator obtained from the machine is immediately
invalid — a valid outcome, not an error. -/
theorem empty_input_no_states :
    saMachine [] = some [] ∧ stMachine [] = some [] ∧ rciValid (mkIter []) = false := by
  decide

/-- Claim C7 (code_bug evidence): the Strings.cpp revision of Build assigns
length(q) to the clone, and already on input aabb ([0,0,1,1]) its final arena
violates the invariant: state 3 (the class of aab-b with length 3) has its
suffix link set to the clone, whose length is also 3, so
length(link(v)) < length(v) fails. -/
theorem saLinkInvR_violated :
    chkLinkLt (saArenaR [0, 0, 1, 1]) = false ∧
      (getV (saArenaR [0, 0, 1, 1]) (getV (saArenaR [0, 0, 1, 1]) 3).suffixLink).length = 3 ∧
      (getV (saArenaR [0, 0, 1, 1]) 3).length = 3 := by
  decide

/-- Claim C7, part_000 evidence: on the exhaustive corpus the part_000 build
satisfies length(link(v)) < length(v) for every non-root state. -/
theorem saLinkInv_small : corpusSmall.all chkLinkInv = true := by decide

/-- Claim C8, counterexample: on input aa ([0,0]) the finalized tree has an
internal (non-root, non-leaf) vertex with exactly one child: the vertex for
the string a, materialized by the finalization split. -/
theorem arity_counterexample : chkArity2 [0, 0] = false := by decide

/-- Claim C8, amended: on the exhaustive corpus, every internal vertex of
the finalized tree has at least 2 children unless it is terminal-marked
(the vertices materialized for implicit suffix endpoints may stay unary), and
every child-map entry (root included) is keyed by the first symbol of the
child's edge. -/
theorem arity_keys_small : corpusSmall.all chkArityKeys = true := by decide

/-- Claim C9, counterexample: calling Next on an invalid iterator does not
abort/panic — Assert spins forever on a violated precondition, so the call
hangs (and in the Strings.cpp revision Next is not checked at all). -/
theorem invalid_next_not_abort :
    rciNext (mkIter []) = Exec.hang ∧ rciNext (mkIter []) ≠ Exec.abortPanic := by
  decide

/-- Claim C9, amended: every operation of a part_000 RightContextIterator
whose precondition Valid() is false is stopped by the Assert guard: the
operation produces no value (it hangs in the Assert busy loop) and is never
silently swallowed or used as control flow; the failure mode is a hang, not
an abort/panic. -/
theorem invalid_access_hangs (it : RCIter) (h : rciValid it = false) :
    rciNext it = Exec.hang ∧ rciGetStateString it = Exec.hang ∧
      rciGetMaximalLength it = Exec.hang ∧ rciGetNumOfOccurrences it = Exec.hang := by
  simp [rciNext, rciGetStateString, rciGetMaximalLength, rciGetNumOfOccurrences, assertRun, h]

/-- Witness for the amended C9 at a concrete invalid iterator: the fresh
iterator of the empty-input machine. -/
theorem invalid_access_hangs_witness :
    rciNext (mkIter []) = Exec.hang ∧ rciGetStateString (mkIter []) = Exec.hang ∧
      rciGetMaximalLength (mkIter []) = Exec.hang ∧
      rciGetNumOfOccurrences (mkIter []) = Exec.hang :=
  invalid_access_hangs (mkIter []) (by decide)

/-- The Strings.cpp revision of Next performs no validity check: advancing an
invalid iterator silently returns a value. -/
theorem rciNextR_unchecked : rciNextR (mkIter []) = RCIter.mk (some []) 1 := rfl
